import Mathlib

namespace Memorex

/-!
Shallow embedding of the memorex repository (keyframe selection, whisper
output parsing, and report cost estimation) together with proofs of the
specification's testable properties.

Conventions used throughout:
* Go float64 arithmetic is idealized as exact arithmetic: pixel intensity
  vectors are lists of rationals, and the similarity score (which involves a
  square root) lives in the real numbers.
* Go time.Duration values are integers counting nanoseconds.
* File and process I/O is abstracted: a frame carries the grayscale vector
  that the Go code would load from its image file, and the transcriber model
  takes the captured recognizer output text as an argument.
-/

/-! ## internal/video/similarity.go -/

/-- Arithmetic mean of a vector: the meanA / meanB computation of
normalizedCrossCorrelation (sum of the entries divided by the length). -/
def mean (v : List ℚ) : ℚ := v.sum / (v.length : ℚ)

/-- Sum of squared deviations from the mean: the sumSqA / sumSqB
accumulators of normalizedCrossCorrelation. -/
def sumSqDiff (v : List ℚ) : ℚ :=
  (v.map (fun x => (x - mean v) * (x - mean v))).sum

/-- Cross-correlation accumulator sumProduct of normalizedCrossCorrelation:
the sum over positions of (a i - meanA) * (b i - meanB). -/
def sumProdDiff (a b : List ℚ) : ℚ :=
  (List.zipWith (fun x y => (x - mean a) * (y - mean b)) a b).sum

/-- Population standard deviation, the stdA / stdB values of
normalizedCrossCorrelation: the square root of sumSq divided by n. -/
noncomputable def std (v : List ℚ) : ℝ :=
  Real.sqrt ((sumSqDiff v : ℝ) / (v.length : ℝ))

/-- Embedding of normalizedCrossCorrelation (similarity.go lines 134-172).
Mismatched lengths or empty input give 0; if either standard deviation is
below 1e-10 the result is 1.0; otherwise the result is
sumProduct / (n * stdA * stdB). -/
noncomputable def normalizedCrossCorrelation (a b : List ℚ) : ℝ :=
  if a.length ≠ b.length ∨ a.length = 0 then 0
  else if std a < 1e-10 ∨ std b < 1e-10 then 1
  else (sumProdDiff a b : ℝ) / ((a.length : ℝ) * std a * std b)

/-- A sampled video frame (video.Frame). The Go struct stores the path of
the frame image on disk together with its ordinal index and capture
timestamp; the grayscale intensity vector that loadAndProcessFrame would
decode from that file is embedded directly as the gray field, abstracting
the file system. Timestamps count nanoseconds (Go time.Duration). -/
structure Frame where
  path : String
  index : ℤ
  timestamp : ℤ
  gray : List ℚ
deriving DecidableEq

/-- A selected keyframe (video.Keyframe): the identity fields of a frame. -/
structure Keyframe where
  path : String
  index : ℤ
  timestamp : ℤ
deriving DecidableEq

/-- The Keyframe literal built from a Frame each time DetectKeyframes
selects a frame. -/
def toKeyframe (f : Frame) : Keyframe :=
  { path := f.path, index := f.index, timestamp := f.timestamp }

/-- The comparison loop of DetectKeyframes (similarity.go lines 53-76):
walk the remaining frames in order, score each against the immediately
preceding original frame, and keep exactly those scoring strictly below
the threshold. -/
noncomputable def detectLoop (prev : Frame) (rest : List Frame) (t : ℝ) :
    List Keyframe :=
  match rest with
  | [] => []
  | f :: fs =>
    (if normalizedCrossCorrelation prev.gray f.gray < t
     then [toKeyframe f] else []) ++ detectLoop f fs t

/-- Embedding of DetectKeyframes (similarity.go lines 23-85): no frames
give no keyframes, a single frame is returned as the sole keyframe, and
otherwise the first frame is always kept, the loop adds every frame whose
score against its predecessor is strictly below the threshold, and the
last frame is appended when the keyframe list does not already end with
its index. Image loading is abstracted into the gray field, so the error
path of loadAndProcessFrame does not arise, and the progress callback
(pure observation) is omitted. -/
noncomputable def DetectKeyframes (frames : List Frame) (t : ℝ) :
    List Keyframe :=
  match frames with
  | [] => []
  | [f0] => [toKeyframe f0]
  | f0 :: f1 :: rest =>
    let keyframes := toKeyframe f0 :: detectLoop f0 (f1 :: rest) t
    let lastFrame := (f1 :: rest).getLast (List.cons_ne_nil f1 rest)
    match keyframes.getLast? with
    | none => keyframes ++ [toKeyframe lastFrame]
    | some k =>
      if k.index ≠ lastFrame.index then keyframes ++ [toKeyframe lastFrame]
      else keyframes

/-- The last entry of the keyframe list built so far (seeded with the first
frame), whose index the final check of DetectKeyframes compares against the
last frame's index. -/
noncomputable def lastSelected (f0 : Frame) (r : List Frame) (t : ℝ) :
    Keyframe :=
  (detectLoop f0 r t).getLastD (toKeyframe f0)

/-! ## internal/audio/transcribe.go -/

/-- A transcribed audio segment (audio.Segment): start and end times in
nanoseconds plus the recognized text. The Go field End is called stop here
because end is reserved in Lean. -/
structure Segment where
  start : ℤ
  stop : ℤ
  text : String
deriving DecidableEq

/-- The whitespace class of the Go regular expression space escape: tab,
newline, form feed, carriage return and space. -/
def isReSpace (c : Char) : Bool :=
  c == ' ' || c == '\t' || c == '\n' || c == '\x0c' || c == '\r'

/-- ASCII whitespace recognized by Go unicode.IsSpace, the class used by
strings.TrimSpace and strings.Fields (non-ASCII unicode space code points
do not occur in recognizer output and are omitted). -/
def isGoSpace (c : Char) : Bool :=
  c == ' ' || c == '\t' || c == '\n' || c == '\x0b' || c == '\x0c' || c == '\r'

/-- strings.TrimSpace on a character list: drop leading and trailing
whitespace. -/
def trimSpace (cs : List Char) : List Char :=
  ((cs.dropWhile isGoSpace).reverse.dropWhile isGoSpace).reverse

/-- strings.Split on a one-character separator: the pieces between
occurrences of the separator, always one piece more than separators. -/
def splitOnChar (sep : Char) : List Char → List (List Char)
  | [] => [[]]
  | c :: cs =>
    if c = sep then [] :: splitOnChar sep cs
    else
      match splitOnChar sep cs with
      | [] => [[c]]
      | l :: ls => (c :: l) :: ls

/-- Value of a decimal digit character, none for anything else. -/
def digitVal (c : Char) : Option ℕ :=
  if '0' ≤ c ∧ c ≤ '9' then some (c.toNat - '0'.toNat) else none

/-- Decimal value of a nonempty all-digit character list, none otherwise
(the digit and emptiness checks of strconv.Atoi). -/
def digitsVal (cs : List Char) : Option ℕ :=
  match cs with
  | [] => none
  | _ =>
    cs.foldl
      (fun acc c => acc.bind (fun n => (digitVal c).map (fun d => n * 10 + d)))
      (some 0)

/-- strconv.Atoi on the small inputs reachable here: an optional sign
followed by decimal digits (timestamp fields are far from the int64
overflow boundary, so overflow is not modelled). -/
def atoi (cs : List Char) : Option ℤ :=
  match cs with
  | '+' :: rest => (digitsVal rest).map (fun n => (n : ℤ))
  | '-' :: rest => (digitsVal rest).map (fun n => -(n : ℤ))
  | _ => (digitsVal cs).map (fun n => (n : ℤ))

/-- Embedding of parseTimestamp (transcribe.go lines 384-420): split on the
colons, require exactly three parts, read hours and minutes, split the
final part on a dot into seconds and optional milliseconds, and combine
everything into nanoseconds. none models the Go error return (whose
duration value is 0 on every error path). -/
def parseTimestamp (ts : String) : Option ℤ :=
  match splitOnChar ':' ts.data with
  | [p0, p1, p2] => do
    let hours ← atoi p0
    let minutes ← atoi p1
    match splitOnChar '.' p2 with
    | [] => none
    | s0 :: restParts => do
      let seconds ← atoi s0
      let millis ←
        match restParts with
        | [] => pure (0 : ℤ)
        | m :: _ => atoi m
      pure (hours * 3600000000000 + minutes * 60000000000 +
        seconds * 1000000000 + millis * 1000000)
  | _ => none

/-- One timestamp inside the recognizer line pattern: exactly two digits, a
colon, two digits, a colon, two digits, a dot and three digits. Returns the
twelve matched characters and the remainder. -/
def takeTimestamp : List Char → Option (List Char × List Char)
  | d1 :: d2 :: c1 :: d3 :: d4 :: c2 :: d5 :: d6 :: dot :: d7 :: d8 :: d9 :: rest =>
    if d1.isDigit && d2.isDigit && c1 == ':' && d3.isDigit && d4.isDigit &&
        c2 == ':' && d5.isDigit && d6.isDigit && dot == '.' && d7.isDigit &&
        d8.isDigit && d9.isDigit
    then some ([d1, d2, c1, d3, d4, c2, d5, d6, dot, d7, d8, d9], rest)
    else none
  | _ => none

/-- The literal arrow between the two timestamps of a recognizer line. -/
def takeArrow : List Char → Option (List Char)
  | '-' :: '-' :: '>' :: rest => some rest
  | _ => none

/-- The whisper line pattern matched at the current position: an opening
bracket, a timestamp, optional spaces, the arrow, optional spaces, a
second timestamp, a closing bracket, and the rest of the line with leading
spaces dropped — the three capture groups of the Go regular expression. -/
def matchTimestampsAt (cs : List Char) :
    Option (List Char × List Char × List Char) :=
  match cs with
  | '[' :: cs1 =>
    match takeTimestamp cs1 with
    | none => none
    | some (ts1, r1) =>
      match takeArrow (r1.dropWhile isReSpace) with
      | none => none
      | some r2 =>
        match takeTimestamp (r2.dropWhile isReSpace) with
        | none => none
        | some (ts2, r3) =>
          match r3 with
          | ']' :: r4 => some (ts1, ts2, r4.dropWhile isReSpace)
          | _ => none
  | _ => none

/-- regexp.FindStringSubmatch for the whisper line pattern: the capture
groups at the leftmost position where the pattern matches, none when no
position matches. -/
def findTimestamps : List Char → Option (List Char × List Char × List Char)
  | [] => none
  | c :: cs =>
    match matchTimestampsAt (c :: cs) with
    | some r => some r
    | none => findTimestamps cs

/-- The dropCR step of bufio.ScanLines: strip one trailing carriage
return. -/
def dropCR (l : List Char) : List Char :=
  match l.getLast? with
  | some '\r' => l.dropLast
  | _ => l

/-- The lines delivered by a bufio.Scanner with ScanLines: split on
newlines, drop the trailing empty piece left when the input ends with a
newline (the scanner stops there), and strip one trailing carriage return
from each line. -/
def splitLines (cs : List Char) : List (List Char) :=
  let pieces := splitOnChar '\n' cs
  let pieces' :=
    match pieces.getLast? with
    | some [] => pieces.dropLast
    | _ => pieces
  pieces'.map dropCR

/-- One iteration of the parseWhisperOutput scan loop (transcribe.go lines
362-377): match the line against the timestamp pattern, parse the two
timestamps (a failed parse leaves the Go zero duration 0), trim the text,
and keep the segment only when the trimmed text is non-empty. -/
def lineToSegment (line : List Char) : Option Segment :=
  match findTimestamps line with
  | none => none
  | some (m1, m2, m3) =>
    let start := (parseTimestamp (String.mk m1)).getD 0
    let stop := (parseTimestamp (String.mk m2)).getD 0
    let text := trimSpace m3
    if text = [] then none
    else some { start := start, stop := stop, text := String.mk text }

/-- Embedding of parseWhisperOutput (transcribe.go lines 355-381): scan the
output line by line and collect, in line order, a segment for every line
matching the bracketed timestamp pattern with non-empty text. -/
def parseWhisperOutput (output : String) : List Segment :=
  (splitLines output.data).filterMap lineToSegment

/-- The post-subprocess logic of runWhisper (transcribe.go lines 310-332).
Process execution is abstracted into its two observable results: the
captured standard output text and the content of the recognizer's text
output file (none models a failed read). When no timestamped segments
parse and the file holds at least one byte, a single segment starting at
zero carrying the trimmed file text is returned; otherwise whatever the
parser produced (possibly the empty list, which is a success, not an
error) is returned. -/
def runWhisperResult (output : String) (fileContent : Option String) :
    List Segment :=
  let segments := parseWhisperOutput output
  match segments with
  | [] =>
    match fileContent with
    | some content =>
      if content.data ≠ []
      then [{ start := 0, stop := 0,
              text := String.mk (trimSpace content.data) }]
      else []
    | none => []
  | _ => segments

/-! ## internal/output/markdown.go -/

/-- A keyframe as consumed by report generation (output.Keyframe). -/
structure OutputKeyframe where
  index : ℤ
  timestamp : ℤ
  path : String
deriving DecidableEq

/-- A transcript segment as consumed by report generation
(output.Segment). -/
structure OutputSegment where
  start : ℤ
  stop : ℤ
  text : String
deriving DecidableEq

/-- All data for markdown generation (output.Result). -/
structure Result where
  inputPath : String
  duration : ℤ
  totalFrames : ℤ
  keyframes : List OutputKeyframe
  segments : List OutputSegment
deriving DecidableEq

/-- Field counter for strings.Fields: the number of maximal runs of
non-whitespace characters, tracked with an inside-a-word flag. -/
def fieldsCountAux : Bool → List Char → ℕ
  | _, [] => 0
  | inWord, c :: cs =>
    if isGoSpace c then fieldsCountAux false cs
    else (if inWord then 0 else 1) + fieldsCountAux true cs

/-- Word count of a segment text: the length of strings.Fields(text). -/
def fieldsCount (s : String) : ℕ := fieldsCountAux false s.data

/-- Embedding of EstimateTokens (markdown.go lines 149-170): 100 tokens of
metadata overhead, about 1.3 tokens per transcript word, and 1000 tokens
per keyframe. The float factor 1.3 with int truncation is idealized as
multiplication by 13/10 followed by the floor, which agrees with
truncation toward zero on these non-negative values. -/
def EstimateTokens (result : Result) : ℤ :=
  100 +
    (result.segments.map
      (fun seg => ⌊(fieldsCount seg.text : ℚ) * (13 / 10 : ℚ)⌋)).sum +
    (result.keyframes.length : ℤ) * 1000

/-- A textured intensity vector used as a concrete test frame content. -/
def vecTextured : List ℚ := [0, 0, 0, 0, 1, 1, 1, 1]

/-- A second textured vector whose score against vecTextured is exactly
one half. -/
def vecShifted : List ℚ := [0, 0, 0, 1, 0, 1, 1, 1]

/-- First frame of the concrete three-frame threshold experiment. -/
def frameA : Frame :=
  { path := "0001.png", index := 1, timestamp := 0, gray := vecTextured }

/-- Second frame of the concrete three-frame threshold experiment. -/
def frameB : Frame :=
  { path := "0002.png", index := 2, timestamp := 1000000000,
    gray := vecShifted }

/-- Third frame of the concrete three-frame threshold experiment. -/
def frameC : Frame :=
  { path := "0003.png", index := 3, timestamp := 2000000000,
    gray := vecTextured }

/-- First flat (constant) test frame. -/
def frameFlat1 : Frame :=
  { path := "0001.png", index := 1, timestamp := 0, gray := [0, 0] }

/-- Second flat test frame, visually identical to the first. -/
def frameFlat2 : Frame :=
  { path := "0002.png", index := 2, timestamp := 1000000000, gray := [0, 0] }

/-- Third flat test frame, visually identical to the first. -/
def frameFlat3 : Frame :=
  { path := "0003.png", index := 3, timestamp := 2000000000, gray := [0, 0] }

/-- The standard deviation of a constant vector is zero. -/
theorem std_replicate_eq_zero (n : ℕ) (c : ℚ) (hn : n ≠ 0) :
    std (List.replicate n c) = 0 := by
  have hmean : mean (List.replicate n c) = c := by
    simp [mean, List.sum_replicate, nsmul_eq_mul]
    field_simp
  have hsq : sumSqDiff (List.replicate n c) = 0 := by
    simp [sumSqDiff, hmean, List.map_replicate, List.sum_replicate]
  simp [std, hsq, Real.sqrt_zero]

/-- A vector whose entries are all equal is a replicate of its length. -/
theorem eq_replicate_of_const {v : List ℚ} {c : ℚ} (h : ∀ x ∈ v, x = c) :
    v = List.replicate v.length c :=
  List.eq_replicate_of_mem h

/-- If the first argument has standard deviation below 1e-10 (and the shape
guard passes), the score is exactly 1. -/
theorem ncc_eq_one_of_left_flat (a b : List ℚ) (hlen : a.length = b.length)
    (hne : a ≠ []) (hstd : std a < 1e-10) :
    normalizedCrossCorrelation a b = 1 := by
  have hlen0 : a.length ≠ 0 := by
    simpa [List.length_eq_zero] using hne
  have hguard : ¬(a.length ≠ b.length ∨ a.length = 0) := by
    push_neg
    exact ⟨hlen, hlen0⟩
  rw [normalizedCrossCorrelation, if_neg hguard, if_pos (Or.inl hstd)]

/-- C5: normalizedCrossCorrelation of two equal-length zero-variance
(constant) vectors is exactly 1.0, and normalizedCrossCorrelation of empty
vectors or of two vectors of different lengths is exactly 0. -/
theorem ncc_degenerate_cases :
    (∀ (a b : List ℚ) (c d : ℚ), a.length = b.length → a ≠ [] →
        (∀ x ∈ a, x = c) → (∀ y ∈ b, y = d) →
        normalizedCrossCorrelation a b = 1) ∧
    normalizedCrossCorrelation [] [] = 0 ∧
    (∀ a b : List ℚ, a.length ≠ b.length → normalizedCrossCorrelation a b = 0) := by
  refine ⟨?_, ?_, ?_⟩
  · intro a b c d hlen hne hca _hcb
    apply ncc_eq_one_of_left_flat a b hlen hne
    have h0 : std a = 0 := by
      conv_lhs => rw [eq_replicate_of_const hca]
      exact std_replicate_eq_zero _ _ (by simpa [List.length_eq_zero] using hne)
    rw [h0]
    norm_num
  · simp [normalizedCrossCorrelation]
  · intro a b h
    simp [normalizedCrossCorrelation, h]

/-- Witness for C5 at concrete inputs: two constant vectors of length two
score 1, and a length-one vector against an empty vector scores 0. -/
theorem ncc_degenerate_cases_witness :
    normalizedCrossCorrelation [(1 : ℚ)/2, 1/2] [(0 : ℚ), 0] = 1 ∧
    normalizedCrossCorrelation [(1 : ℚ)] [] = 0 :=
  ⟨ncc_degenerate_cases.1 _ _ ((1 : ℚ)/2) 0 (by decide) (by simp)
      (by norm_num) (by norm_num),
   ncc_degenerate_cases.2.2 _ _ (by decide)⟩

/-- If either argument has standard deviation below 1e-10 (and the shape
guard passes), the score is exactly 1: the two-sided form of the Go guard
stdA < 1e-10 || stdB < 1e-10. -/
theorem ncc_eq_one_of_flat (a b : List ℚ) (hlen : a.length = b.length)
    (hne : a ≠ []) (hstd : std a < 1e-10 ∨ std b < 1e-10) :
    normalizedCrossCorrelation a b = 1 := by
  have hlen0 : a.length ≠ 0 := by
    simpa [List.length_eq_zero] using hne
  have hguard : ¬(a.length ≠ b.length ∨ a.length = 0) := by
    push_neg
    exact ⟨hlen, hlen0⟩
  rw [normalizedCrossCorrelation, if_neg hguard, if_pos hstd]

/-- C10: normalizedCrossCorrelation returns exactly 1.0 whenever either one
of the two input vectors has standard deviation below 1e-10, whatever the
other vector holds — so a flat frame scores as identical against any
textured frame on either side of the comparison — and such a comparison
can never fall strictly below any threshold t at most 1, so it can never
mark a keyframe for such thresholds. -/
theorem ncc_flat_frame_always_similar :
    ∀ a b : List ℚ, a.length = b.length → a ≠ [] →
      (std a < 1e-10 ∨ std b < 1e-10) →
      normalizedCrossCorrelation a b = 1 ∧
      ∀ t : ℝ, t ≤ 1 → ¬ normalizedCrossCorrelation a b < t := by
  intro a b hlen hne hstd
  have h1 := ncc_eq_one_of_flat a b hlen hne hstd
  refine ⟨h1, ?_⟩
  intro t ht
  rw [h1]
  exact not_lt.mpr ht

/-- Witness for C10, exercising both sides of the guard: the textured
vector (0, 1) against the flat vector (0, 0) — the operative order when a
flat current frame follows a textured predecessor in DetectKeyframes —
and the flat vector against the textured one; both score 1 and can never
be flagged at a threshold at most 1. -/
theorem ncc_flat_frame_always_similar_witness :
    (normalizedCrossCorrelation [(0 : ℚ), 1] [(0 : ℚ), 0] = 1 ∧
      ∀ t : ℝ, t ≤ 1 →
        ¬ normalizedCrossCorrelation [(0 : ℚ), 1] [(0 : ℚ), 0] < t) ∧
    (normalizedCrossCorrelation [(0 : ℚ), 0] [(0 : ℚ), 1] = 1 ∧
      ∀ t : ℝ, t ≤ 1 →
        ¬ normalizedCrossCorrelation [(0 : ℚ), 0] [(0 : ℚ), 1] < t) :=
  ⟨ncc_flat_frame_always_similar _ _ (by decide) (by simp)
      (Or.inr (by
        have hrepl : ([(0 : ℚ), 0] : List ℚ) = List.replicate 2 0 := by
          simp [List.replicate]
        rw [hrepl, std_replicate_eq_zero 2 0 (by norm_num)]
        norm_num)),
   ncc_flat_frame_always_similar _ _ (by decide) (by simp)
      (Or.inl (by
        have hrepl : ([(0 : ℚ), 0] : List ℚ) = List.replicate 2 0 := by
          simp [List.replicate]
        rw [hrepl, std_replicate_eq_zero 2 0 (by norm_num)]
        norm_num))⟩

/-- The optional last element of a cons list is the last element of its
tail, defaulting to the head. -/
theorem getLast?_cons_eq : ∀ (l : List α) (a : α),
    (a :: l).getLast? = some (l.getLastD a)
  | [], _ => rfl
  | b :: m, a => by
    rw [List.getLast?_cons_cons, getLast?_cons_eq m b, List.getLastD_cons]

/-- Unfolding of DetectKeyframes on a list of at least two frames. -/
theorem DetectKeyframes_cons₂ (f0 f1 : Frame) (rest : List Frame) (t : ℝ) :
    DetectKeyframes (f0 :: f1 :: rest) t =
      if ((detectLoop f0 (f1 :: rest) t).getLastD (toKeyframe f0)).index ≠
           ((f1 :: rest).getLast (List.cons_ne_nil f1 rest)).index
      then (toKeyframe f0 :: detectLoop f0 (f1 :: rest) t) ++
             [toKeyframe ((f1 :: rest).getLast (List.cons_ne_nil f1 rest))]
      else toKeyframe f0 :: detectLoop f0 (f1 :: rest) t := by
  rw [DetectKeyframes, getLast?_cons_eq]

/-- Loosening the threshold only ever adds selections: the keyframes the
loop emits at a lower threshold form a sublist of those at a higher one. -/
theorem detectLoop_sublist_of_le (p : Frame) (r : List Frame) {t1 t2 : ℝ}
    (h : t1 ≤ t2) : List.Sublist (detectLoop p r t1) (detectLoop p r t2) := by
  induction r generalizing p with
  | nil => simp [detectLoop]
  | cons f fs ih =>
    simp only [detectLoop]
    by_cases h1 : normalizedCrossCorrelation p.gray f.gray < t1
    · rw [if_pos h1, if_pos (lt_of_lt_of_le h1 h)]
      simpa using (ih f).cons₂ (toKeyframe f)
    · rw [if_neg h1]
      by_cases h2 : normalizedCrossCorrelation p.gray f.gray < t2
      · rw [if_pos h2]
        simpa using (ih f).cons (toKeyframe f)
      · rw [if_neg h2]
        simpa using ih f

/-- Every keyframe the loop emits comes from one of the walked frames. -/
theorem detectLoop_sublist_map (p : Frame) (r : List Frame) (t : ℝ) :
    List.Sublist (detectLoop p r t) (r.map toKeyframe) := by
  induction r generalizing p with
  | nil => simp [detectLoop]
  | cons f fs ih =>
    simp only [detectLoop, List.map_cons]
    by_cases h1 : normalizedCrossCorrelation p.gray f.gray < t
    · rw [if_pos h1]
      simpa using (ih f).cons₂ (toKeyframe f)
    · rw [if_neg h1]
      simpa using (ih f).cons (toKeyframe f)

/-- Splitting the comparison loop at the final frame: the last comparison
is against the last of the earlier frames (or the seed frame). -/
theorem detectLoop_append_last (p : Frame) (ys : List Frame) (z : Frame)
    (t : ℝ) :
    detectLoop p (ys ++ [z]) t =
      detectLoop p ys t ++
        (if normalizedCrossCorrelation (ys.getLastD p).gray z.gray < t
         then [toKeyframe z] else []) := by
  induction ys generalizing p with
  | nil => simp [detectLoop]
  | cons f fs ih =>
    simp only [List.cons_append, detectLoop, List.append_eq,
      List.getLastD_cons, ih f, List.append_assoc]

/-- Membership in the loop output characterized positionally: a keyframe is
emitted exactly for the frames scoring below the threshold against their
stream predecessor. -/
theorem mem_detectLoop_iff (p : Frame) (r : List Frame) (t : ℝ)
    (k : Keyframe) :
    k ∈ detectLoop p r t ↔
      ∃ (i : ℕ) (h : i < r.length),
        k = toKeyframe (r.get ⟨i, h⟩) ∧
        normalizedCrossCorrelation
          ((p :: r).get ⟨i, Nat.lt_succ_of_lt h⟩).gray
          (r.get ⟨i, h⟩).gray < t := by
  induction r generalizing p with
  | nil => simp [detectLoop]
  | cons f fs ih =>
    simp only [detectLoop, List.mem_append]
    constructor
    · rintro (hk | hk)
      · by_cases hc : normalizedCrossCorrelation p.gray f.gray < t
        · rw [if_pos hc] at hk
          simp only [List.mem_singleton] at hk
          exact ⟨0, Nat.succ_pos _, by simpa using hk, by simpa using hc⟩
        · rw [if_neg hc] at hk
          simp at hk
      · obtain ⟨i, hi, hk, hc⟩ := (ih f).mp hk
        refine ⟨i + 1, Nat.succ_lt_succ hi, by simpa using hk, ?_⟩
        simpa using hc
    · rintro ⟨i, hi, hk, hc⟩
      cases i with
      | zero =>
        left
        rw [if_pos (by simpa using hc)]
        simpa using hk
      | succ j =>
        right
        refine (ih f).mpr ⟨j, by simpa using hi, by simpa using hk, ?_⟩
        simpa using hc

/-- The last selected keyframe after walking up to the final frame: the
final frame itself when its comparison fires, the previous value
otherwise. -/
theorem lastSelected_append (f0 : Frame) (ys : List Frame) (z : Frame)
    (t : ℝ) :
    lastSelected f0 (ys ++ [z]) t =
      if normalizedCrossCorrelation (ys.getLastD f0).gray z.gray < t
      then toKeyframe z else lastSelected f0 ys t := by
  unfold lastSelected
  rw [detectLoop_append_last]
  by_cases hc : normalizedCrossCorrelation (ys.getLastD f0).gray z.gray < t
  · rw [if_pos hc, if_pos hc, List.getLastD_concat]
  · rw [if_neg hc, if_neg hc, List.append_nil]

/-- Size of the output of DetectKeyframes on at least two frames: the first
frame, the loop selections, and one more when the final duplicate check
appends the last frame. -/
theorem DetectKeyframes_length (f0 : Frame) (r : List Frame) (hr : r ≠ [])
    (t : ℝ) :
    (DetectKeyframes (f0 :: r) t).length =
      1 + (detectLoop f0 r t).length +
        (if (lastSelected f0 r t).index = (r.getLastD f0).index
         then 0 else 1) := by
  match r, hr with
  | f1 :: rest, _ =>
    rw [DetectKeyframes_cons₂, List.getLastD_cons,
      List.getLast_eq_getLastD]
    by_cases h : (lastSelected f0 (f1 :: rest) t).index =
        (rest.getLastD f1).index
    · have hcond : ¬ ((detectLoop f0 (f1 :: rest) t).getLastD
          (toKeyframe f0)).index ≠ (rest.getLastD f1).index := by
        simpa [lastSelected] using h
      rw [if_neg hcond, if_pos h]
      simp only [List.length_cons]
      omega
    · have hcond : ((detectLoop f0 (f1 :: rest) t).getLastD
          (toKeyframe f0)).index ≠ (rest.getLastD f1).index := by
        simpa [lastSelected] using h
      rw [if_pos hcond, if_neg h]
      simp only [List.length_append, List.length_cons, List.length_singleton,
        List.length_nil]
      omega

/-- Raising the threshold never shrinks the keyframe list returned by
DetectKeyframes. -/
theorem DetectKeyframes_length_mono (frames : List Frame) {t1 t2 : ℝ}
    (h : t1 ≤ t2) :
    (DetectKeyframes frames t1).length ≤ (DetectKeyframes frames t2).length := by
  match frames with
  | [] => simp [DetectKeyframes]
  | [f0] => simp [DetectKeyframes]
  | f0 :: f1 :: rest =>
    rcases List.eq_nil_or_concat (f1 :: rest) with hnil | ⟨ys, z, hyz⟩
    · exact absurd hnil (List.cons_ne_nil f1 rest)
    rw [List.concat_eq_append] at hyz
    rw [hyz, DetectKeyframes_length f0 (ys ++ [z]) (by simp) t1,
      DetectKeyframes_length f0 (ys ++ [z]) (by simp) t2,
      detectLoop_append_last, detectLoop_append_last,
      lastSelected_append, lastSelected_append, List.getLastD_concat]
    have hsub := detectLoop_sublist_of_le f0 ys h
    have hlen := hsub.length_le
    by_cases h2 : normalizedCrossCorrelation (ys.getLastD f0).gray z.gray < t2
    · rw [if_pos h2, if_pos h2]
      by_cases h1 : normalizedCrossCorrelation (ys.getLastD f0).gray z.gray < t1
      · rw [if_pos h1, if_pos h1]
        simp only [toKeyframe, List.length_append, List.length_singleton]
        omega
      · rw [if_neg h1, if_neg h1, List.append_nil]
        simp only [toKeyframe, List.length_append, List.length_singleton]
        split <;> omega
    · have h1 : ¬ normalizedCrossCorrelation (ys.getLastD f0).gray z.gray < t1 :=
        fun hc => h2 (lt_of_lt_of_le hc h)
      rw [if_neg h1, if_neg h2, if_neg h1, if_neg h2,
        List.append_nil, List.append_nil]
      by_cases e2 : (lastSelected f0 ys t2).index = z.index
      · by_cases e1 : (lastSelected f0 ys t1).index = z.index
        · rw [if_pos e1, if_pos e2]
          omega
        · have hne : detectLoop f0 ys t1 ≠ detectLoop f0 ys t2 := by
            intro he
            exact e1 (by rw [lastSelected, he, ← lastSelected]; exact e2)
          have hlt : (detectLoop f0 ys t1).length < (detectLoop f0 ys t2).length :=
            lt_of_le_of_ne hlen (fun hl => hne (hsub.eq_of_length hl))
          rw [if_neg e1, if_pos e2]
          omega
      · rw [if_neg e2]
        split <;> omega

/-- C6: appending a transcript segment or a keyframe to a Result never
decreases the value of EstimateTokens. -/
theorem estimate_tokens_monotone :
    ∀ (r : Result) (seg : OutputSegment) (kf : OutputKeyframe),
      EstimateTokens r ≤
        EstimateTokens { r with segments := r.segments ++ [seg] } ∧
      EstimateTokens r ≤
        EstimateTokens { r with keyframes := r.keyframes ++ [kf] } := by
  intro r seg kf
  constructor
  · have h0 : (0 : ℤ) ≤ ⌊(fieldsCount seg.text : ℚ) * (13 / 10 : ℚ)⌋ := by
      apply Int.floor_nonneg.mpr
      positivity
    simp only [EstimateTokens, List.map_append, List.sum_append,
      List.map_cons, List.map_nil, List.sum_cons, List.sum_nil]
    omega
  · simp only [EstimateTokens, List.length_append, List.length_singleton]
    push_cast
    omega

/-- C7: the recognizer line with bracketed timestamps zero and three
seconds and the text Hello, world. parses to exactly one segment with
start 0, end 3 seconds, and that text; the fixed-width timestamp fields
decode positionally as hours, minutes, seconds and milliseconds. -/
theorem whisper_line_scenario :
    parseWhisperOutput "[00:00:00.000 --> 00:00:03.000]  Hello, world." =
      [{ start := 0, stop := 3000000000, text := "Hello, world." }] ∧
    parseTimestamp "01:23:45.678" =
      some (1 * 3600000000000 + 23 * 60000000000 +
        45 * 1000000000 + 678 * 1000000) := by
  constructor
  · decide
  · decide

/-- C8: when the recognizer exits successfully and its output has no
bracketed timestamp lines, the transcriber returns one segment starting at
0 whose text is the (trimmed) plain-text output whenever any non-empty
text was produced, and successfully returns the empty segment list when no
text was produced at all. -/
theorem transcriber_fallback :
    ∀ (output : String) (fileContent : Option String),
      parseWhisperOutput output = [] →
      (∀ content, fileContent = some content → content.data ≠ [] →
        runWhisperResult output fileContent =
          [{ start := 0, stop := 0,
             text := String.mk (trimSpace content.data) }]) ∧
      ((fileContent = some "" ∨ fileContent = none) →
        runWhisperResult output fileContent = []) := by
  intro output fc hempty
  constructor
  · rintro content rfl hne
    simp [runWhisperResult, hempty, hne]
  · rintro (rfl | rfl) <;> simp [runWhisperResult, hempty]

/-- Witness for C8: recognizer output consisting of one log line, with a
plain-text file content and with an empty file. -/
theorem transcriber_fallback_witness :
    runWhisperResult "whisper log line" (some "hello") =
      [{ start := 0, stop := 0,
         text := String.mk (trimSpace "hello".data) }] ∧
    runWhisperResult "whisper log line" (some "") = [] :=
  ⟨(transcriber_fallback "whisper log line" (some "hello")
      (by decide)).1 "hello" rfl (by decide),
   (transcriber_fallback "whisper log line" (some "")
      (by decide)).2 (Or.inl rfl)⟩

/-- For C9 (counterexample): the parser keeps recognizer lines in emission
order, so recognizer output whose timestamped lines are out of order
yields a segment list whose start times are not non-decreasing. -/
theorem transcript_ordering_counterexample :
    ¬ List.Pairwise (fun s1 s2 : Segment => s1.start ≤ s2.start)
      (parseWhisperOutput
        "[00:00:05.000 --> 00:00:06.000] later\n[00:00:01.000 --> 00:00:02.000] earlier") := by
  decide

/-- Unfolding of DetectKeyframes over any nonempty tail, phrased with
lastSelected. -/
theorem DetectKeyframes_cons_ne (f0 : Frame) (r : List Frame) (hr : r ≠ [])
    (t : ℝ) :
    DetectKeyframes (f0 :: r) t =
      if (lastSelected f0 r t).index ≠ (r.getLast hr).index
      then (toKeyframe f0 :: detectLoop f0 r t) ++ [toKeyframe (r.getLast hr)]
      else toKeyframe f0 :: detectLoop f0 r t := by
  match r, hr with
  | f1 :: rest, _ => rw [DetectKeyframes_cons₂]; rfl

/-- With strictly increasing frame indices, every keyframe selected before
the final frame carries an index smaller than the final frame's. -/
theorem index_lt_of_mem_selected {f0 : Frame} {ys : List Frame} {z : Frame}
    {t : ℝ}
    (hinc : List.Pairwise (fun a b => a.index < b.index) (f0 :: (ys ++ [z]))) :
    ∀ k ∈ toKeyframe f0 :: detectLoop f0 ys t, k.index < z.index := by
  intro k hk
  rcases List.mem_cons.mp hk with rfl | hk
  · have h0 := (List.pairwise_cons.mp hinc).1 z (by simp)
    simpa [toKeyframe] using h0
  · have hmap : k ∈ ys.map toKeyframe :=
      (detectLoop_sublist_map f0 ys t).mem hk
    obtain ⟨y, hy, rfl⟩ := List.mem_map.mp hmap
    have hys := (List.pairwise_cons.mp hinc).2
    have := (List.pairwise_append.mp hys).2.2 y hy z (by simp)
    simpa [toKeyframe] using this

/-- The last selected keyframe is the seed or one of the loop outputs. -/
theorem lastSelected_mem (f0 : Frame) (r : List Frame) (t : ℝ) :
    lastSelected f0 r t ∈ toKeyframe f0 :: detectLoop f0 r t := by
  unfold lastSelected
  match h : detectLoop f0 r t with
  | [] => simp
  | k :: ks =>
    right
    rw [List.getLastD_eq_getLast?, getLast?_cons_eq]
    exact List.getLastD_mem_cons _ _

/-- The first frame is always a member of the output of DetectKeyframes. -/
theorem head_mem_DetectKeyframes (f0 : Frame) (r : List Frame) (t : ℝ) :
    toKeyframe f0 ∈ DetectKeyframes (f0 :: r) t := by
  cases r with
  | nil => simp [DetectKeyframes]
  | cons f1 rest =>
    rw [DetectKeyframes_cons_ne f0 (f1 :: rest) (List.cons_ne_nil f1 rest) t]
    split <;> simp

/-- With strictly increasing indices, the last frame is always a member of
the output of DetectKeyframes. -/
theorem last_mem_DetectKeyframes (f0 : Frame) (r : List Frame) (hr : r ≠ [])
    (t : ℝ)
    (hinc : List.Pairwise (fun a b => a.index < b.index) (f0 :: r)) :
    toKeyframe (r.getLast hr) ∈ DetectKeyframes (f0 :: r) t := by
  obtain ⟨ys, z, rfl⟩ : ∃ ys z, r = ys ++ [z] := by
    rcases List.eq_nil_or_concat r with h | ⟨ys, z, h⟩
    · exact absurd h hr
    · exact ⟨ys, z, by simpa [List.concat_eq_append] using h⟩
  have hlast : (ys ++ [z]).getLast hr = z := List.getLast_concat _
  rw [DetectKeyframes_cons_ne f0 (ys ++ [z]) hr t, hlast]
  by_cases hc : normalizedCrossCorrelation (ys.getLastD f0).gray z.gray < t
  · have hz : toKeyframe z ∈ detectLoop f0 (ys ++ [z]) t := by
      rw [detectLoop_append_last, if_pos hc]
      simp
    split <;> simp [hz]
  · have hsel : lastSelected f0 (ys ++ [z]) t = lastSelected f0 ys t := by
      rw [lastSelected_append, if_neg hc]
    have hlt : (lastSelected f0 ys t).index < z.index :=
      index_lt_of_mem_selected hinc _ (lastSelected_mem f0 ys t)
    have hne : (lastSelected f0 (ys ++ [z]) t).index ≠ z.index := by
      rw [hsel]
      exact ne_of_lt hlt
    rw [if_pos hne]
    simp

/-- C2: for every fixed frame sequence and pair of thresholds t1 at most
t2, DetectKeyframes returns at least as many keyframes at t2 as at t1:
raising the threshold never decreases the keyframe count. -/
theorem selector_monotonicity :
    ∀ (frames : List Frame) (t1 t2 : ℝ), t1 ≤ t2 →
      (DetectKeyframes frames t1).length ≤ (DetectKeyframes frames t2).length :=
  fun frames _ _ h => DetectKeyframes_length_mono frames h

/-- Witness for C2 on a concrete two-frame sequence and the thresholds 1/4
and 3/4. -/
theorem selector_monotonicity_witness :
    (1/4 : ℝ) ≤ 3/4 ∧
    (DetectKeyframes
        [{ path := "0001.png", index := 1, timestamp := 0, gray := [0, 0] },
         { path := "0002.png", index := 2, timestamp := 1000000000,
           gray := [0, 1] }] (1/4)).length ≤
      (DetectKeyframes
        [{ path := "0001.png", index := 1, timestamp := 0, gray := [0, 0] },
         { path := "0002.png", index := 2, timestamp := 1000000000,
           gray := [0, 1] }] (3/4)).length :=
  ⟨by norm_num, selector_monotonicity _ (1/4) (3/4) (by norm_num)⟩

/-- C4: DetectKeyframes returns no keyframes on no frames, returns exactly
the one frame on a single frame, and on two or more frames with strictly
increasing indices both the first and the last frame of the sequence are
present in the output. -/
theorem selector_boundary :
    ∀ (t : ℝ) (f : Frame) (frames : List Frame),
      DetectKeyframes [] t = [] ∧
      DetectKeyframes [f] t = [toKeyframe f] ∧
      (∀ (h2 : 2 ≤ frames.length),
        List.Pairwise (fun a b => a.index < b.index) frames →
        toKeyframe (frames.head (by intro h; rw [h] at h2; simp at h2)) ∈
            DetectKeyframes frames t ∧
          toKeyframe (frames.getLast (by intro h; rw [h] at h2; simp at h2)) ∈
            DetectKeyframes frames t) := by
  intro t f frames
  refine ⟨rfl, rfl, ?_⟩
  intro h2 hinc
  match frames, h2 with
  | f0 :: f1 :: rest, _ =>
    constructor
    · exact head_mem_DetectKeyframes f0 (f1 :: rest) t
    · rw [List.getLast_cons (List.cons_ne_nil f1 rest)]
      exact last_mem_DetectKeyframes f0 (f1 :: rest)
        (List.cons_ne_nil f1 rest) t hinc

/-- Witness for C4 on a concrete two-frame strictly indexed sequence. -/
theorem selector_boundary_witness :
    DetectKeyframes [] (1/2 : ℝ) = [] ∧
    DetectKeyframes
        [{ path := "0001.png", index := 1, timestamp := 0,
           gray := [0, 0] }] (1/2 : ℝ) =
      [toKeyframe { path := "0001.png", index := 1, timestamp := 0,
                    gray := [0, 0] }] ∧
    (toKeyframe
        (([{ path := "0001.png", index := 1, timestamp := 0, gray := [0, 0] },
           { path := "0002.png", index := 2, timestamp := 1000000000,
             gray := [0, 1] }] : List Frame).head (by simp)) ∈
        DetectKeyframes
          [{ path := "0001.png", index := 1, timestamp := 0, gray := [0, 0] },
           { path := "0002.png", index := 2, timestamp := 1000000000,
             gray := [0, 1] }] (1/2 : ℝ) ∧
      toKeyframe
        (([{ path := "0001.png", index := 1, timestamp := 0, gray := [0, 0] },
           { path := "0002.png", index := 2, timestamp := 1000000000,
             gray := [0, 1] }] : List Frame).getLast (by simp)) ∈
        DetectKeyframes
          [{ path := "0001.png", index := 1, timestamp := 0, gray := [0, 0] },
           { path := "0002.png", index := 2, timestamp := 1000000000,
             gray := [0, 1] }] (1/2 : ℝ)) := by
  have h := selector_boundary (1/2 : ℝ)
    { path := "0001.png", index := 1, timestamp := 0, gray := [0, 0] }
    [{ path := "0001.png", index := 1, timestamp := 0, gray := [0, 0] },
     { path := "0002.png", index := 2, timestamp := 1000000000,
       gray := [0, 1] }]
  exact ⟨h.1, h.2.1, h.2.2 (by decide) (by decide)⟩

/-- With pairwise strictly increasing indices, positions with equal frame
indices coincide. -/
theorem get_index_inj {r : List Frame}
    (hp : List.Pairwise (fun a b => a.index < b.index) r)
    {i j : ℕ} (hi : i < r.length) (hj : j < r.length)
    (h : (r.get ⟨i, hi⟩).index = (r.get ⟨j, hj⟩).index) : i = j := by
  rcases lt_trichotomy i j with hlt | heq | hgt
  · have hij := List.pairwise_iff_get.mp hp ⟨i, hi⟩ ⟨j, hj⟩ (by simpa using hlt)
    exact absurd h (ne_of_lt hij)
  · exact heq
  · have hij := List.pairwise_iff_get.mp hp ⟨j, hj⟩ ⟨i, hi⟩ (by simpa using hgt)
    exact absurd h.symm (ne_of_lt hij)

/-- A keyframe whose index differs both from the first frame's and the last
frame's lies in the output of DetectKeyframes exactly when the comparison
loop emitted it. -/
theorem mem_DetectKeyframes_middle_iff (f0 : Frame) (r : List Frame)
    (hr : r ≠ []) (t : ℝ) (k : Keyframe)
    (hk0 : k.index ≠ f0.index) (hkz : k.index ≠ (r.getLast hr).index) :
    (k ∈ DetectKeyframes (f0 :: r) t ↔ k ∈ detectLoop f0 r t) := by
  rw [DetectKeyframes_cons_ne f0 r hr t]
  by_cases hsel : (lastSelected f0 r t).index ≠ (r.getLast hr).index
  · rw [if_pos hsel]
    simp only [List.mem_append, List.mem_cons, List.mem_singleton,
      List.not_mem_nil, or_false]
    constructor
    · rintro ((rfl | hm) | rfl)
      · exact absurd rfl hk0
      · exact hm
      · exact absurd rfl hkz
    · intro hm
      exact Or.inl (Or.inr hm)
  · rw [if_neg hsel]
    simp only [List.mem_cons]
    constructor
    · rintro (rfl | hm)
      · exact absurd rfl hk0
      · exact hm
    · exact Or.inr

/-- C3 (amended): with strictly increasing frame indices, every frame
strictly between the first and the last is selected exactly when its score
against the immediately preceding original frame is strictly below the
threshold — while the last frame is always selected, whatever its score. -/
theorem selection_rule_amended :
    ∀ (frames : List Frame) (t : ℝ),
      List.Pairwise (fun a b => a.index < b.index) frames →
      (∀ (j : ℕ) (h2 : j + 2 < frames.length),
        (toKeyframe (frames.get ⟨j + 1, by omega⟩) ∈
            DetectKeyframes frames t ↔
          normalizedCrossCorrelation (frames.get ⟨j, by omega⟩).gray
            (frames.get ⟨j + 1, by omega⟩).gray < t)) ∧
      (∀ h : frames ≠ [],
        toKeyframe (frames.getLast h) ∈ DetectKeyframes frames t) := by
  intro frames t hinc
  constructor
  · intro j h2
    match frames, h2, hinc with
    | f0 :: r, h2, hinc =>
      have hrlen : j + 1 < r.length := by
        simpa [List.length_cons] using Nat.lt_of_succ_lt_succ h2
      have hr : r ≠ [] := by
        intro h
        rw [h] at hrlen
        simp at hrlen
      have hpr : List.Pairwise (fun a b : Frame => a.index < b.index) r :=
        (List.pairwise_cons.mp hinc).2
      have hj : j < r.length := Nat.lt_of_succ_lt hrlen
      have hget1 : (f0 :: r).get ⟨j + 1, by simpa using Nat.succ_lt_succ hj⟩ =
          r.get ⟨j, hj⟩ := List.get_cons_succ
      have hk0 : (toKeyframe (r.get ⟨j, hj⟩)).index ≠ f0.index := by
        have := (List.pairwise_cons.mp hinc).1 (r.get ⟨j, hj⟩)
          (List.get_mem r j hj)
        simpa [toKeyframe] using (ne_of_gt this)
      have hlastget : (r.getLast hr).index =
          (r.get ⟨r.length - 1, by omega⟩).index := by
        rw [List.getLast_eq_getElem, List.get_eq_getElem]
      have hkz : (toKeyframe (r.get ⟨j, hj⟩)).index ≠ (r.getLast hr).index := by
        rw [hlastget]
        have hjlt : j < r.length - 1 := by omega
        have := List.pairwise_iff_get.mp hpr ⟨j, hj⟩
          ⟨r.length - 1, by omega⟩ (by simpa using hjlt)
        simpa [toKeyframe] using (ne_of_lt this)
      rw [hget1, mem_DetectKeyframes_middle_iff f0 r hr t _ hk0 hkz,
        mem_detectLoop_iff]
      constructor
      · rintro ⟨i', hi', heq, hc⟩
        have hidx : (r.get ⟨i', hi'⟩).index = (r.get ⟨j, hj⟩).index := by
          have := congrArg Keyframe.index heq
          simpa [toKeyframe] using this.symm
        have hij : i' = j := get_index_inj hpr hi' hj hidx
        subst hij
        exact hc
      · intro hc
        exact ⟨j, hj, rfl, hc⟩
  · intro h
    match frames, h, hinc with
    | [f0], _, _ => simp [DetectKeyframes]
    | f0 :: f1 :: rest, _, hinc =>
      rw [List.getLast_cons (List.cons_ne_nil f1 rest)]
      exact last_mem_DetectKeyframes f0 (f1 :: rest)
        (List.cons_ne_nil f1 rest) t hinc

/-- Mean of the textured vector. -/
theorem mean_vecTextured : mean vecTextured = 1/2 := by
  norm_num [mean, vecTextured]

/-- Mean of the shifted vector. -/
theorem mean_vecShifted : mean vecShifted = 1/2 := by
  norm_num [mean, vecShifted]

/-- Squared-deviation sum of the textured vector. -/
theorem sumSqDiff_vecTextured : sumSqDiff vecTextured = 2 := by
  rw [sumSqDiff, mean_vecTextured]
  norm_num [vecTextured]

/-- Squared-deviation sum of the shifted vector. -/
theorem sumSqDiff_vecShifted : sumSqDiff vecShifted = 2 := by
  rw [sumSqDiff, mean_vecShifted]
  norm_num [vecShifted]

/-- Standard deviation of the textured vector. -/
theorem std_vecTextured : std vecTextured = 1/2 := by
  rw [std, sumSqDiff_vecTextured,
    show (vecTextured.length : ℝ) = 8 by norm_num [vecTextured],
    show ((2 : ℚ) : ℝ)/8 = (1/2 : ℝ)^2 by norm_num]
  exact Real.sqrt_sq (by norm_num)

/-- Standard deviation of the shifted vector. -/
theorem std_vecShifted : std vecShifted = 1/2 := by
  rw [std, sumSqDiff_vecShifted,
    show (vecShifted.length : ℝ) = 8 by norm_num [vecShifted],
    show ((2 : ℚ) : ℝ)/8 = (1/2 : ℝ)^2 by norm_num]
  exact Real.sqrt_sq (by norm_num)

/-- The two textured vectors agree on six of their eight deviations. -/
theorem sumProdDiff_textured_shifted :
    sumProdDiff vecTextured vecShifted = 1 := by
  rw [sumProdDiff, mean_vecTextured, mean_vecShifted]
  norm_num [vecTextured, vecShifted]

/-- The cross term in the opposite order. -/
theorem sumProdDiff_shifted_textured :
    sumProdDiff vecShifted vecTextured = 1 := by
  rw [sumProdDiff, mean_vecTextured, mean_vecShifted]
  norm_num [vecTextured, vecShifted]

/-- The score of the textured vector against the shifted vector is exactly
one half. -/
theorem ncc_textured_shifted :
    normalizedCrossCorrelation vecTextured vecShifted = 1/2 := by
  have hguard : ¬(vecTextured.length ≠ vecShifted.length ∨
      vecTextured.length = 0) := by
    norm_num [vecTextured, vecShifted]
  have hflat : ¬(std vecTextured < 1e-10 ∨ std vecShifted < 1e-10) := by
    rw [std_vecTextured, std_vecShifted]
    norm_num
  rw [normalizedCrossCorrelation, if_neg hguard, if_neg hflat,
    sumProdDiff_textured_shifted, std_vecTextured, std_vecShifted,
    show (vecTextured.length : ℝ) = 8 by norm_num [vecTextured]]
  norm_num

/-- The score in the opposite order is also exactly one half. -/
theorem ncc_shifted_textured :
    normalizedCrossCorrelation vecShifted vecTextured = 1/2 := by
  have hguard : ¬(vecShifted.length ≠ vecTextured.length ∨
      vecShifted.length = 0) := by
    norm_num [vecTextured, vecShifted]
  have hflat : ¬(std vecShifted < 1e-10 ∨ std vecTextured < 1e-10) := by
    rw [std_vecTextured, std_vecShifted]
    norm_num
  rw [normalizedCrossCorrelation, if_neg hguard, if_neg hflat,
    sumProdDiff_shifted_textured, std_vecTextured, std_vecShifted,
    show (vecShifted.length : ℝ) = 8 by norm_num [vecShifted]]
  norm_num

/-- At threshold 1/4 no comparison of the experiment fires. -/
theorem detectLoop_experiment_low :
    detectLoop frameA [frameB, frameC] (1/4 : ℝ) = [] := by
  simp only [detectLoop, frameA, frameB, frameC]
  rw [ncc_textured_shifted, ncc_shifted_textured,
    if_neg (by norm_num), if_neg (by norm_num)]
  simp

/-- At threshold 3/4 both comparisons of the experiment fire. -/
theorem detectLoop_experiment_high :
    detectLoop frameA [frameB, frameC] (3/4 : ℝ) =
      [toKeyframe frameB, toKeyframe frameC] := by
  simp only [detectLoop, frameA, frameB, frameC]
  rw [ncc_textured_shifted, ncc_shifted_textured,
    if_pos (by norm_num), if_pos (by norm_num)]
  simp [toKeyframe, frameB, frameC]

/-- For C1 (counterexample): on a concrete three-frame sequence whose
adjacent scores are exactly one half, the lower threshold 1/4 yields two
keyframes while the higher threshold 3/4 yields three — raising the
threshold produced strictly more keyframes, not fewer. -/
theorem threshold_direction_counterexample :
    (1/4 : ℝ) < (3/4 : ℝ) ∧
    (DetectKeyframes [frameA, frameB, frameC] (1/4 : ℝ)).length = 2 ∧
    (DetectKeyframes [frameA, frameB, frameC] (3/4 : ℝ)).length = 3 := by
  refine ⟨by norm_num, ?_, ?_⟩
  · rw [DetectKeyframes_length frameA [frameB, frameC] (by simp) (1/4 : ℝ)]
    rw [show lastSelected frameA [frameB, frameC] (1/4 : ℝ) =
        toKeyframe frameA by
      rw [lastSelected, detectLoop_experiment_low]
      rfl]
    rw [detectLoop_experiment_low]
    norm_num [toKeyframe, frameA, frameB, frameC]
  · rw [DetectKeyframes_length frameA [frameB, frameC] (by simp) (3/4 : ℝ)]
    rw [show lastSelected frameA [frameB, frameC] (3/4 : ℝ) =
        toKeyframe frameC by
      rw [lastSelected, detectLoop_experiment_high]
      rfl]
    rw [detectLoop_experiment_high]
    norm_num [toKeyframe, frameB, frameC]

/-- C1 (amended): raising the threshold makes fewer comparisons pass as
similar (a pair passes as similar when its score is at least the
threshold) and therefore yields at least as many keyframes from
DetectKeyframes, never fewer; symmetrically a lower threshold yields at
most as many. -/
theorem threshold_direction_amended :
    ∀ (frames : List Frame) (t1 t2 : ℝ), t1 ≤ t2 →
      (∀ a b : List ℚ, t2 ≤ normalizedCrossCorrelation a b →
        t1 ≤ normalizedCrossCorrelation a b) ∧
      (DetectKeyframes frames t1).length ≤
        (DetectKeyframes frames t2).length :=
  fun frames _ _ h =>
    ⟨fun _ _ h2 => le_trans h h2, DetectKeyframes_length_mono frames h⟩

/-- Witness for the amended C1 on the concrete three-frame experiment. -/
theorem threshold_direction_amended_witness :
    (1/4 : ℝ) ≤ (3/4 : ℝ) ∧
    ((∀ a b : List ℚ, (3/4 : ℝ) ≤ normalizedCrossCorrelation a b →
        (1/4 : ℝ) ≤ normalizedCrossCorrelation a b) ∧
      (DetectKeyframes [frameA, frameB, frameC] (1/4 : ℝ)).length ≤
        (DetectKeyframes [frameA, frameB, frameC] (3/4 : ℝ)).length) :=
  ⟨by norm_num,
   threshold_direction_amended [frameA, frameB, frameC] (1/4) (3/4)
     (by norm_num)⟩

/-- For C3 (counterexample): on two identical flat frames at threshold 1/2
the second (and last) frame scores 1 against its predecessor — not below
the threshold — yet it is selected by DetectKeyframes, because the last
frame is appended unconditionally; so membership is not equivalent to
scoring strictly below the threshold for the last frame. -/
theorem selection_rule_counterexample :
    ¬ normalizedCrossCorrelation frameFlat1.gray frameFlat2.gray <
        (1/2 : ℝ) ∧
    toKeyframe frameFlat2 ∈
      DetectKeyframes [frameFlat1, frameFlat2] (1/2 : ℝ) := by
  have hstd : std [(0 : ℚ), 0] = 0 := by
    rw [show ([(0 : ℚ), 0] : List ℚ) = List.replicate 2 0 by
        simp [List.replicate],
      std_replicate_eq_zero 2 0 (by norm_num)]
  have hncc : normalizedCrossCorrelation [(0 : ℚ), 0] [(0 : ℚ), 0] = 1 :=
    ncc_eq_one_of_left_flat _ _ rfl (by simp) (by rw [hstd]; norm_num)
  have hgray1 : frameFlat1.gray = [(0 : ℚ), 0] := rfl
  have hgray2 : frameFlat2.gray = [(0 : ℚ), 0] := rfl
  constructor
  · rw [hgray1, hgray2, hncc]
    norm_num
  · have hloop : detectLoop frameFlat1 [frameFlat2] (1/2 : ℝ) = [] := by
      simp only [detectLoop]
      rw [hgray1, hgray2, hncc, if_neg (by norm_num)]
      simp
    rw [DetectKeyframes_cons₂, hloop, if_pos (by decide)]
    simp

/-- Witness for the amended C3 on three flat frames at threshold 1/2. -/
theorem selection_rule_amended_witness :
    (toKeyframe
        (([frameFlat1, frameFlat2, frameFlat3] : List Frame).get
          ⟨0 + 1, by norm_num⟩) ∈
        DetectKeyframes [frameFlat1, frameFlat2, frameFlat3] (1/2 : ℝ) ↔
      normalizedCrossCorrelation
        (([frameFlat1, frameFlat2, frameFlat3] : List Frame).get
          ⟨0, by norm_num⟩).gray
        (([frameFlat1, frameFlat2, frameFlat3] : List Frame).get
          ⟨0 + 1, by norm_num⟩).gray < (1/2 : ℝ)) ∧
    toKeyframe
        (([frameFlat1, frameFlat2, frameFlat3] : List Frame).getLast
          (by simp)) ∈
      DetectKeyframes [frameFlat1, frameFlat2, frameFlat3] (1/2 : ℝ) := by
  have h := selection_rule_amended [frameFlat1, frameFlat2, frameFlat3]
    (1/2 : ℝ) (by decide)
  exact ⟨h.1 0 (by norm_num), h.2 (by simp)⟩

/-- C9 (amended): keyframe indices in the output of DetectKeyframes are
strictly increasing whenever the input frame indices are; and the
transcriber keeps segments in recognizer emission order, so the segment
start times are non-decreasing whenever the start times parsed from the
recognizer's timestamped lines appear in non-decreasing order. -/
theorem ordering_invariant_amended :
    (∀ (frames : List Frame) (t : ℝ),
      List.Pairwise (fun a b => a.index < b.index) frames →
      List.Pairwise (fun j k : Keyframe => j.index < k.index)
        (DetectKeyframes frames t)) ∧
    (∀ output : String,
      List.Pairwise (· ≤ ·)
        ((splitLines output.data).filterMap
          (fun l => (lineToSegment l).map Segment.start)) →
      List.Pairwise (fun s1 s2 : Segment => s1.start ≤ s2.start)
        (parseWhisperOutput output)) := by
  constructor
  · intro frames t hinc
    match frames, hinc with
    | [], _ => simp [DetectKeyframes]
    | [f0], _ => simp [DetectKeyframes]
    | f0 :: f1 :: rest, hinc =>
      rcases List.eq_nil_or_concat (f1 :: rest) with hnil | ⟨ys, z, hyz⟩
      · exact absurd hnil (List.cons_ne_nil f1 rest)
      rw [List.concat_eq_append] at hyz
      rw [hyz] at hinc ⊢
      rw [DetectKeyframes_cons_ne f0 (ys ++ [z]) (by simp) t,
        List.getLast_concat]
      have hkfs : List.Pairwise (fun j k : Keyframe => j.index < k.index)
          (toKeyframe f0 :: detectLoop f0 (ys ++ [z]) t) := by
        have hsub : List.Sublist
            (toKeyframe f0 :: detectLoop f0 (ys ++ [z]) t)
            ((f0 :: (ys ++ [z])).map toKeyframe) := by
          simpa [List.map_cons] using
            (detectLoop_sublist_map f0 (ys ++ [z]) t).cons₂ (toKeyframe f0)
        have hmap : List.Pairwise (fun j k : Keyframe => j.index < k.index)
            ((f0 :: (ys ++ [z])).map toKeyframe) := by
          rw [List.pairwise_map]
          exact hinc
        exact hmap.sublist hsub
      split
      case isTrue hne =>
        apply List.pairwise_append.mpr
        refine ⟨hkfs, List.pairwise_singleton _ _, ?_⟩
        intro x hx y hy
        simp only [List.mem_singleton] at hy
        subst hy
        by_cases hc : normalizedCrossCorrelation (ys.getLastD f0).gray
            z.gray < t
        · exfalso
          apply hne
          rw [lastSelected_append, if_pos hc]
          rfl
        · rw [detectLoop_append_last, if_neg hc, List.append_nil] at hx
          have hlt := index_lt_of_mem_selected hinc x hx
          simpa [toKeyframe] using hlt
      case isFalse => exact hkfs
  · intro output hp
    have hmap : (splitLines output.data).filterMap
        (fun l => (lineToSegment l).map Segment.start) =
        (parseWhisperOutput output).map Segment.start := by
      rw [parseWhisperOutput, ← List.map_filterMap]
    rw [hmap] at hp
    exact List.pairwise_map.mp hp

/-- Witness for the amended C9: two strictly indexed flat frames, and a
recognizer output whose two timestamped lines are in order. -/
theorem ordering_invariant_amended_witness :
    List.Pairwise (fun j k : Keyframe => j.index < k.index)
      (DetectKeyframes [frameFlat1, frameFlat2] (1/2 : ℝ)) ∧
    List.Pairwise (fun s1 s2 : Segment => s1.start ≤ s2.start)
      (parseWhisperOutput
        "[00:00:01.000 --> 00:00:02.000] a\n[00:00:05.000 --> 00:00:06.000] b") :=
  ⟨ordering_invariant_amended.1 [frameFlat1, frameFlat2] (1/2 : ℝ)
      (by decide),
   ordering_invariant_amended.2 _ (by decide)⟩

end Memorex
